import Mathlib

/-!
# Verification of momoko's query queue and polling utilities

A shallow embedding of `momoko/queue.py` (`DbQueryQueue`) and
`momoko/utils.py` (`BatchQuery`, `Poller`) in Lean 4, with theorems about
the queue drain cycle, expiry sweep, the no-result flush, SQL formatting,
fan-out batch completion and the readiness poller's error branch.

SQL text is modelled as `List Char`; clock readings (`time.time()`) as
integers — every claim about time is order-theoretic, so any linearly
ordered time domain serves; request ids (`uuid4`) as naturals handed out
by a fresh counter.
Callbacks are modelled by the observable events of their invocation.
-/

namespace Momoko

/-! ## Python %-formatting (the `%` operator used by `format_sql`)

`format_sql` relies on Python's `%` string-formatting operator.  We model
the fragment exercised by the code: `%(key)s` named specifiers with a
mapping, `%s` positional specifiers with a tuple, and the `%%` escape.
A malformed template (a trailing or unknown specifier) or a missing key /
argument-count mismatch makes Python raise; the model returns `none`. -/

/-- Scan characters up to the closing `)` of a `%(key)s` specifier,
returning the key and the remaining characters.  `none` when the template
ends before `)` (Python raises "incomplete format key"). -/
def takeKey : List Char → Option (List Char × List Char)
  | [] => none
  | c :: rest =>
    if c = ')' then some ([], rest)
    else (takeKey rest).map (fun p => (c :: p.1, p.2))

/-- Python `tmpl % mapping` for templates whose specifiers are all
`%(key)s` (plus the `%%` escape): substitutes each key's value from the
association list.  `none` models a raised exception (incomplete format,
unsupported conversion, or missing key).  The `fuel` argument only bounds
the scanner's recursion; every step consumes at least one character, so
`fuel = length of the template` (as supplied by `pySubst`) never runs
out. -/
def pySubstF (params : List (List Char × List Char)) : Nat → List Char → Option (List Char)
  | _, [] => some []
  | fuel + 1, '%' :: rest =>
    match rest with
    | [] => none
    | '%' :: rest' => (pySubstF params fuel rest').map (fun s => '%' :: s)
    | '(' :: rest' =>
      match takeKey rest' with
      | none => none
      | some (key, afterKey) =>
        match afterKey with
        | 's' :: rest'' =>
          match params.lookup key with
          | none => none
          | some v => (pySubstF params fuel rest'').map (fun s => v ++ s)
        | _ => none
    | _ :: _ => none
  | fuel + 1, c :: rest => (pySubstF params fuel rest).map (fun s => c :: s)
  | 0, _ :: _ => none

/-- Python `tmpl % mapping` with `%(key)s` specifiers. -/
def pySubst (params : List (List Char × List Char)) (tmpl : List Char) :
    Option (List Char) :=
  pySubstF params tmpl.length tmpl

/-- Python `tmpl % tuple` for templates whose specifiers are all `%s`
(plus the `%%` escape): substitutes values positionally.  `none` models a
raised exception (incomplete format, unsupported conversion, too few or
too many arguments). -/
def pySubstPos : List Char → List (List Char) → Option (List Char)
  | [], [] => some []
  | [], _ :: _ => none
  | '%' :: rest, vals =>
    match rest, vals with
    | '%' :: rest', _ => (pySubstPos rest' vals).map (fun s => '%' :: s)
    | 's' :: rest', v :: vals' => (pySubstPos rest' vals').map (fun s => v ++ s)
    | _, _ => none
  | c :: rest, vals => (pySubstPos rest vals).map (fun s => c :: s)

/-- The parameters accepted by `format_sql`: `None`, a dict, or a
list/tuple.  Values are taken post-adaptation (`adapt(...).getquoted()` is
psycopg2's, outside this core). -/
inductive SqlParams where
  | noneP : SqlParams
  | dictP : List (List Char × List Char) → SqlParams
  | tupleP : List (List Char) → SqlParams

/-- `DbQueryQueue.format_sql`.  In the dict branch the source assigns
`sql = sql_tmpl % adapted` (line 70) and then, after the branch, assigns
`sql = sql_tmpl % adapted` once more (line 78) — both applications take
the original template, the second overwriting the first with the same
value.  The tuple branch only builds `adapted`; line 78 performs its one
substitution.  With no params the template is returned unchanged. -/
def format_sql (sql_tmpl : List Char) : SqlParams → Option (List Char)
  | .noneP => some sql_tmpl
  | .dictP adapted =>
    match pySubst adapted sql_tmpl with
    | none => none
    | some _ => pySubst adapted sql_tmpl
  | .tupleP adapted => pySubstPos sql_tmpl adapted

/-! ## The result query queue (`DbQueryQueue`)

`self.queue` is an `OrderedDict` used purely as a FIFO keyed by fresh
`uuid4` strings: entries are appended at the tail and `popitem(last=False)`
removes at the head.  We model it as a list of `(id, entry)` pairs in
insertion order, ids as naturals. -/

/-- The fetch kind stored with a pending query (`command` in the source,
asserted to be `'fetchall'` or `'fetchone'`). -/
inductive FetchKind where
  | fetchone : FetchKind
  | fetchall : FetchKind
deriving DecidableEq

/-- A pending single-result query as stored by `DbQueryQueue.execute`:
the tuple `(sql, callback, key, command, expires_at)` minus the redundant
key copy; the callback is identified by the entry's id in the observable
events. -/
structure PendingQuery where
  sql : List Char
  kind : FetchKind
  expiresAt : ℤ
deriving DecidableEq

/-- `DbQueryQueue.execute`: formats the SQL first (so a formatting error
raises synchronously, before any state is touched), then stores the entry
under a fresh key with `expires_at = now + timeout`.  `.error` models the
exception propagating to the caller with the queue untouched. -/
def DbQueryQueue.execute (now : ℤ) (key : Nat) (sql_tmpl : List Char)
    (params : SqlParams) (kind : FetchKind) (timeout : ℤ)
    (queue : List (Nat × PendingQuery)) :
    Except Unit (List (Nat × PendingQuery)) :=
  match format_sql sql_tmpl params with
  | none => .error ()
  | some sql => .ok (queue ++ [(key, ⟨sql, kind, now + timeout⟩)])

/-- The drain loop at the head of `DbQueryQueue.poller`:
`while self.queue and i < self.queue_length:` pops the head of the queue
(`popitem(last=False)`) into `temp_queries`.  Returns the remaining queue
and the drained batch, both in order. -/
def drainLoop (queueLength : Nat) :
    List (Nat × PendingQuery) → List (Nat × PendingQuery) → Nat →
    List (Nat × PendingQuery) × List (Nat × PendingQuery)
  | queue, temp, i =>
    if _h : i < queueLength then
      match queue with
      | [] => (queue, temp)
      | hd :: tl => drainLoop queueLength tl (temp ++ [hd]) (i + 1)
    else (queue, temp)
  termination_by _ _ i => queueLength - i
  decreasing_by omega

/-- Observable events of a drain cycle's delivery loop: `invoked uid d`
records `callback(data)` being entered with extracted rows `d`;
`logged uid` records the `except` branch printing the error raised while
processing entry `uid`. -/
inductive QEvent where
  | invoked : Nat → ℕ → QEvent
  | logged : Nat → QEvent
deriving DecidableEq

/-- The delivery loop at the tail of `DbQueryQueue.poller`: for each
drained entry in batch order, `data = getattr(cursor, command)()` then
`callback(data)`, the whole pair wrapped in `try/except` that only prints.
`extract uid` is the row extraction's outcome for entry `uid` (its cursor
applied to its fetch kind); `cbRaises uid` tells whether that entry's own
continuation raises after being entered. -/
def deliverTemp (extract : Nat → Except Unit ℕ) (cbRaises : Nat → Bool) :
    List (Nat × PendingQuery) → List QEvent
  | [] => []
  | (uid, _) :: rest =>
    (match extract uid with
     | .error _ => [.logged uid]
     | .ok d => .invoked uid d :: (if cbRaises uid then [.logged uid] else [])) ++
    deliverTemp extract cbRaises rest

/-- One full cycle of `DbQueryQueue.poller`: drain up to `queue_length`
entries from the head of the queue into `temp_queries`, submit them all,
join on all cursors, then run the delivery loop over the batch in drain
order.  Returns the delivery events in order and the queue left behind. -/
def pollerCycle (queueLength : Nat) (extract : Nat → Except Unit ℕ)
    (cbRaises : Nat → Bool) (queue : List (Nat × PendingQuery)) :
    List QEvent × List (Nat × PendingQuery) :=
  let drained := drainLoop queueLength queue [] 0
  (deliverTemp extract cbRaises drained.2, drained.1)

/-- `DbQueryQueue.purge_expired`: walks the queue in order; an entry with
`cur_time > expires_at` has `callback(None)` scheduled (recorded as its id)
and is dropped, any other entry is kept, in order, in the rebuilt queue.
Returns the new queue and the ids whose continuations were scheduled with
`None`. -/
def purge_expired (curTime : ℤ) :
    List (Nat × PendingQuery) → List (Nat × PendingQuery) × List Nat
  | [] => ([], [])
  | (k, v) :: rest =>
    let pr := purge_expired curTime rest
    if v.expiresAt < curTime then (pr.1, k :: pr.2)
    else ((k, v) :: pr.1, pr.2)

/-- A sequence of expiry sweeps at the given clock readings, with no drain
in between: each sweep runs `purge_expired` on the queue the previous one
left.  Firings are recorded as `(sweep time, id, value passed)`; the value
is always `none` (`functools` schedules `callback(None)`). -/
def runSweeps :
    List ℤ → List (Nat × PendingQuery) → List (Nat × PendingQuery) × List (ℤ × Nat × Option ℕ)
  | [], queue => (queue, [])
  | t :: ts, queue =>
    let p1 := purge_expired t queue
    let p2 := runSweeps ts p1.1
    (p2.1, p1.2.map (fun k => (t, k, none)) ++ p2.2)

/-! ## The no-result queue -/

/-- The no-result side of `DbQueryQueue`: the pending statements
`(sql, callback)` in insertion order (callbacks are optional and
identified by a tag), and `noresult_last_time`. -/
structure NoresultState where
  noresult_queue : List (Nat × (List Char × Option Nat))
  noresult_last_time : ℤ
deriving DecidableEq

/-- The drain loop of `execute_noresult_queue`: pops every entry off the
head of the queue, collecting each SQL text and each non-null callback, in
order. -/
def noresultDrain :
    List (Nat × (List Char × Option Nat)) → List (List Char) × List Nat
  | [] => ([], [])
  | (_, (sql, cb)) :: rest =>
    let (sqls, cbs) := noresultDrain rest
    (sql :: sqls, match cb with | some c => c :: cbs | none => cbs)

/-- Python's `';\n'.join(sql_defs)`. -/
def joinSemiNl : List (List Char) → List Char
  | [] => []
  | [s] => s
  | s :: rest => s ++ (';' :: '\n' :: joinSemiNl rest)

/-- `DbQueryQueue.execute_noresult_queue`: on an empty queue it returns at
once — before the last-flush timestamp update at the end of the method.
Otherwise it drains the whole queue, joins the statements with `';\n'`
into one compound command, submits it once, and sets
`noresult_last_time = time.time()`.  Returns the new state, the submitted
command (if any) and the collected callbacks in invocation order
(`perform_callbacks` runs them in collection order once the command
completes). -/
def execute_noresult_queue (now : ℤ) (s : NoresultState) :
    NoresultState × Option (List Char) × List Nat :=
  if s.noresult_queue = [] then (s, none, [])
  else
    let (sqls, cbs) := noresultDrain s.noresult_queue
    (⟨[], now⟩, some (joinSemiNl sqls), cbs)

/-! ## The fan-out batch runner (`BatchQuery` in `momoko/utils.py`) -/

/-- Python dict assignment `self._args[key] = cursor` on an association
list: overwrite the existing binding, else append a new one. -/
def insertA {K C : Type} [DecidableEq K] : List (K × C) → K → C → List (K × C)
  | [], k, c => [(k, c)]
  | (k', c') :: t, k, c =>
    if k' = k then (k, c) :: t else (k', c') :: insertA t k c

/-- The mutable state of a `BatchQuery`: `_size` (the countdown of
outstanding queries), `_args` (the key → cursor mapping built so far), and
`fired` — the recorded argument of each invocation of `_callback`. -/
structure BState (K C : Type) where
  size : Nat
  args : List (K × C)
  fired : List (List (K × C))
deriving DecidableEq

/-- `BatchQuery._collect(key, cursor)`: decrement `_size`, store the
cursor under its key, and when the countdown reaches zero (and a callback
was given) invoke `_callback(self._args)` — recorded by appending the
current `_args` to `fired`. -/
def batchCollect {K C : Type} [DecidableEq K] (cbPresent : Bool)
    (s : BState K C) (key : K) (cursor : C) : BState K C :=
  let size' := s.size - 1
  let args' := insertA s.args key cursor
  if size' = 0 ∧ cbPresent then ⟨size', args', s.fired ++ [args']⟩
  else ⟨size', args', s.fired⟩

/-- The initial state `BatchQuery.__init__` builds for a query dict with
the given keys: `_size = len(queries)`, empty `_args`, callback not yet
invoked. -/
def batchInit {K C : Type} (keys : List K) : BState K C :=
  ⟨keys.length, [], []⟩

/-- A run of a `BatchQuery`: the queries complete one at a time in an
arbitrary order, each completion calling `_collect` with its key and
cursor. -/
def runCollects {K C : Type} [DecidableEq K] (cbPresent : Bool) :
    BState K C → List (K × C) → BState K C
  | s, [] => s
  | s, (k, c) :: rest => runCollects cbPresent (batchCollect cbPresent s k c) rest

/-! ## The readiness poller's error branch (`Poller._update_handler`) -/

/-- Observable events of `Poller._update_handler`'s `except` branch:
`called i err` records callback number `i` being entered with the error
object; `cbLogged i` records the per-callback `except` printing the
exception that callback itself raised. -/
inductive PEvent where
  | called : Nat → ℕ → PEvent
  | cbLogged : Nat → PEvent
deriving DecidableEq

/-- The loop `for callback in self._callbacks: try: callback(error)
except: print ...` — callback `i` is modelled by the flag saying whether
it raises when invoked. -/
def pollerErrorLoop (err : ℕ) : Nat → List Bool → List PEvent
  | _, [] => []
  | i, raises :: rest =>
    (.called i err :: (if raises then [.cbLogged i] else [])) ++
    pollerErrorLoop err (i + 1) rest

/-- The `except (psycopg2.Warning, psycopg2.Error)` branch of
`Poller._update_handler`: guarded by `if self._callbacks:`, it invokes
every registered callback with the error object, each invocation wrapped
in its own `try/except`. -/
def pollerErrorBranch (err : ℕ) (callbacks : List Bool) : List PEvent :=
  if callbacks = [] then [] else pollerErrorLoop err 0 callbacks

/-! ## Id ownership across enqueue / drain / deliver (for the queue
invariant)

An abstract run of `DbQueryQueue`: `execute` appends a fresh id to the
queue; `poller` (when its previous cycle has fully delivered, so
`temp_queries` is empty) moves up to `queue_length` head entries into
`temp_queries`; each delivery pops the batch head and fires its
continuation.  Enqueues may interleave anywhere (the drain joins on its
cursors before delivering). -/

/-- The parts of a `DbQueryQueue` that hold request ids: the pending
queue, the in-flight `temp_queries` batch, the ids whose continuations
have fired, and the fresh-id supply (uuid4 modelled as a counter). -/
structure QState where
  queue : List (Nat × PendingQuery)
  temp : List (Nat × PendingQuery)
  fired : List Nat
  next : Nat

/-- One interleaved step of the queue's life cycle. -/
inductive QOp where
  | enqueue : PendingQuery → QOp
  | drain : Nat → QOp
  | deliverOne : QOp

/-- Apply one step: `enqueue` appends under the fresh id; `drain n` runs
the poller's drain loop into a new empty `temp_queries` (a cycle only
starts after the previous one has delivered everything); `deliverOne`
pops the batch head and fires its continuation. -/
def qStep (s : QState) : QOp → QState
  | .enqueue e => { s with queue := s.queue ++ [(s.next, e)], next := s.next + 1 }
  | .drain n =>
    if s.temp = [] then
      let (rest, temp) := drainLoop n s.queue [] 0
      { s with queue := rest, temp := temp }
    else s
  | .deliverOne =>
    match s.temp with
    | [] => s
    | (uid, _) :: rest => { s with temp := rest, fired := s.fired ++ [uid] }

/-- A fresh queue (`DbQueryQueue.__init__`). -/
def qInit : QState := ⟨[], [], [], 0⟩

/-- Run a sequence of steps from the initial state. -/
def qRun (ops : List QOp) : QState := ops.foldl qStep qInit

/-! ## Claims about `format_sql` and enqueue-time formatting -/

/-- Claim C10 (counterexample): with the adapted value `100%` containing a
`%` character, `format_sql` neither raises nor differs from a single
substitution — it returns exactly `template % adapted` — whereas the
claimed double substitution `(template % adapted) % adapted` would raise
(the re-scan hits the trailing `%`). -/
theorem format_sql_double_subst_cx :
    format_sql "SELECT %(v)s;".toList (.dictP [("v".toList, "100%".toList)]) =
      some "SELECT 100%;".toList ∧
    (pySubst [("v".toList, "100%".toList)] "SELECT %(v)s;".toList).bind
      (pySubst [("v".toList, "100%".toList)]) = none ∧
    format_sql "SELECT %(v)s;".toList (.dictP [("v".toList, "100%".toList)]) ≠
      (pySubst [("v".toList, "100%".toList)] "SELECT %(v)s;".toList).bind
        (pySubst [("v".toList, "100%".toList)]) := by
  decide

/-- Claim C10 (amended): in the dict branch `format_sql` performs the
`%`-substitution twice, but line 78 re-applies it to `sql_tmpl`, not to
the line-70 result, so the returned SQL equals a single substitution
`template % adapted`; an adapted value containing `%` is never re-scanned
and causes no error. -/
theorem format_sql_single_subst (tmpl : List Char)
    (adapted : List (List Char × List Char)) :
    format_sql tmpl (.dictP adapted) = pySubst adapted tmpl := by
  unfold format_sql
  cases h : pySubst adapted tmpl <;> simp [h]

/-- Claim C8: `DbQueryQueue.execute` substitutes parameters at enqueue
time — a formatting failure surfaces synchronously as the call's error
with no entry appended, and on success the appended entry already carries
the formatted SQL together with its fresh key and
`expires_at = now + timeout`. -/
theorem execute_formats_eagerly (now : ℤ) (key : Nat) (tmpl : List Char)
    (params : SqlParams) (kind : FetchKind) (timeout : ℤ)
    (queue : List (Nat × PendingQuery)) :
    (format_sql tmpl params = none →
      DbQueryQueue.execute now key tmpl params kind timeout queue = .error ()) ∧
    (∀ sql, format_sql tmpl params = some sql →
      DbQueryQueue.execute now key tmpl params kind timeout queue =
        .ok (queue ++ [(key, ⟨sql, kind, now + timeout⟩)])) := by
  constructor
  · intro h
    simp [DbQueryQueue.execute, h]
  · intro sql h
    simp [DbQueryQueue.execute, h]

/-- Witness for C8: the truncated template `SELECT %(` makes formatting
fail, and `execute` then reports the error (the queue argument producing
no successor state); the well-formed template succeeds and appends the
formatted entry. -/
theorem execute_formats_eagerly_witness :
    (format_sql "SELECT %(".toList (.dictP []) = none ∧
      DbQueryQueue.execute 0 7 "SELECT %(".toList (.dictP []) .fetchone 300 [] =
        .error ()) ∧
    (format_sql "SELECT %(v)s;".toList (.dictP [("v".toList, "1".toList)]) =
        some "SELECT 1;".toList ∧
      DbQueryQueue.execute 0 7 "SELECT %(v)s;".toList
          (.dictP [("v".toList, "1".toList)]) .fetchone 300 [] =
        .ok [(7, ⟨"SELECT 1;".toList, .fetchone, 300⟩)]) := by
  refine ⟨⟨by decide, ?_⟩, ⟨by decide, ?_⟩⟩
  · exact (execute_formats_eagerly 0 7 "SELECT %(".toList (.dictP [])
      .fetchone 300 []).1 (by decide)
  · simpa using (execute_formats_eagerly 0 7 "SELECT %(v)s;".toList
      (.dictP [("v".toList, "1".toList)]) .fetchone 300 []).2
      "SELECT 1;".toList (by decide)

/-! ## Claims about the no-result flush -/

/-- Claim C3 (counterexample): flushing the empty no-result queue at time
1 leaves the last-flush timestamp at its old value 0 — the early
`return` skips the update — refuting the claimed timestamp update (it
does invoke zero continuations and submit nothing). -/
theorem noresult_empty_flush_cx :
    execute_noresult_queue 1 ⟨[], 0⟩ = (⟨[], 0⟩, none, []) ∧
    (execute_noresult_queue 1 ⟨[], 0⟩).1.noresult_last_time ≠ 1 := by
  decide

/-- Claim C3 (amended): flushing the no-result queue while it is empty
returns immediately — it leaves the whole state (in particular the
last-flush timestamp) unchanged, invokes zero continuations, and never
submits a command. -/
theorem noresult_empty_flush (now : ℤ) (s : NoresultState)
    (h : s.noresult_queue = []) :
    execute_noresult_queue now s = (s, none, []) := by
  simp [execute_noresult_queue, h]

/-- Witness for the amended C3 at the empty queue with timestamp 0,
flushed at time 1. -/
theorem noresult_empty_flush_witness :
    (⟨[], 0⟩ : NoresultState).noresult_queue = [] ∧
    execute_noresult_queue 1 ⟨[], 0⟩ = (⟨[], 0⟩, none, []) :=
  ⟨rfl, noresult_empty_flush 1 ⟨[], 0⟩ rfl⟩

/-- Claim C4 (counterexample): with the two statements `S1;` then `S2;`
pending, a flush submits the single command `S1;;\nS2;` — the `';\n'`
join inserts a second semicolon — not the claimed `S1;\nS2;`. -/
theorem noresult_flush_compound_cx :
    (execute_noresult_queue 1
        ⟨[(0, ("S1;".toList, none)), (1, ("S2;".toList, none))], 0⟩).2.1 =
      some "S1;;\nS2;".toList ∧
    (execute_noresult_queue 1
        ⟨[(0, ("S1;".toList, none)), (1, ("S2;".toList, none))], 0⟩).2.1 ≠
      some "S1;\nS2;".toList := by
  decide

/-- Claim C4 (amended): flushing a no-result queue holding formatted
statements `S1` then `S2` submits exactly one compound command, the two
texts joined by the separator `';\n'` in submission order (so statements
already ending in `;` yield `S1;;\nS2;`), drains the queue, stamps the
flush time, and collects the callbacks in submission order. -/
theorem noresult_flush_compound (k1 k2 : Nat) (s1 s2 : List Char)
    (c1 c2 : Option Nat) (lastTime now : ℤ) :
    execute_noresult_queue now ⟨[(k1, (s1, c1)), (k2, (s2, c2))], lastTime⟩ =
      (⟨[], now⟩, some (s1 ++ ';' :: '\n' :: s2), c1.toList ++ c2.toList) := by
  cases c1 <;> cases c2 <;>
    simp [execute_noresult_queue, noresultDrain, joinSemiNl]

/-! ## Claims about the drain cycle -/

/-- The drain loop takes exactly the `queue_length` (minus the starting
counter) oldest entries, in order, and leaves the rest. -/
theorem drainLoop_eq (queueLength : Nat) (q temp : List (Nat × PendingQuery))
    (i : Nat) :
    drainLoop queueLength q temp i =
      (q.drop (queueLength - i), temp ++ q.take (queueLength - i)) := by
  induction q generalizing temp i with
  | nil => unfold drainLoop; simp
  | cons hd tl ih =>
    unfold drainLoop
    by_cases h : i < queueLength
    · rw [dif_pos h]
      have hred : (match hd :: tl with
          | [] => (hd :: tl, temp)
          | hd :: tl => drainLoop queueLength tl (temp ++ [hd]) (i + 1)) =
          drainLoop queueLength tl (temp ++ [hd]) (i + 1) := rfl
      rw [hred, ih]
      have hqi : queueLength - i = (queueLength - (i + 1)) + 1 := by omega
      rw [hqi]
      simp
    · rw [dif_neg h]
      have hqi : queueLength - i = 0 := by omega
      simp [hqi]

/-- With every extraction succeeding and no continuation raising, the
delivery loop invokes each batch entry's continuation in batch order. -/
theorem deliverTemp_ok (dataOf : Nat → ℕ) (l : List (Nat × PendingQuery)) :
    deliverTemp (fun u => .ok (dataOf u)) (fun _ => false) l =
      l.map (fun p => QEvent.invoked p.1 (dataOf p.1)) := by
  induction l with
  | nil => rfl
  | cons hd tl ih => cases hd; simp [deliverTemp, ih]

/-- Claim C1: a drain cycle pops the oldest `queue_length` entries (at
most) off the head of the queue and fires their continuations in exactly
that submission order, leaving the younger entries queued — so with
entries A, B, C and `queue_length = 2`, one cycle fires A then B and
leaves C for the next. -/
theorem poller_fifo_drain (queueLength : Nat)
    (queue : List (Nat × PendingQuery)) (dataOf : Nat → ℕ) :
    pollerCycle queueLength (fun u => .ok (dataOf u)) (fun _ => false) queue =
      ((queue.take queueLength).map (fun p => QEvent.invoked p.1 (dataOf p.1)),
        queue.drop queueLength) := by
  unfold pollerCycle
  rw [drainLoop_eq]
  simp [deliverTemp_ok]

/-- An entry whose extraction or continuation raises has the error logged
by the delivery loop, wherever it sits in the batch. -/
theorem deliverTemp_mem_logged (extract : Nat → Except Unit ℕ)
    (cbRaises : Nat → Bool) (uid : Nat) (pq : PendingQuery)
    (temp : List (Nat × PendingQuery)) (hmem : (uid, pq) ∈ temp)
    (hfail : (∃ e, extract uid = .error e) ∨ cbRaises uid = true) :
    QEvent.logged uid ∈ deliverTemp extract cbRaises temp := by
  induction temp with
  | nil => cases hmem
  | cons hd tl ih =>
    obtain ⟨uid', pq'⟩ := hd
    simp only [deliverTemp, List.mem_append]
    rcases List.mem_cons.mp hmem with heq | hmem'
    · left
      injection heq with h1 h2
      subst h1
      rcases hfail with ⟨e, herr⟩ | hcb
      · simp [herr]
      · cases hex : extract uid with
        | error e => simp [hex]
        | ok d => simp [hex, hcb]
    · right
      exact ih hmem'

/-- An entry whose extraction succeeds has its continuation invoked by
the delivery loop, wherever it sits in the batch and whatever the other
entries do. -/
theorem deliverTemp_mem_invoked (extract : Nat → Except Unit ℕ)
    (cbRaises : Nat → Bool) (uid : Nat) (pq : PendingQuery)
    (temp : List (Nat × PendingQuery)) (hmem : (uid, pq) ∈ temp)
    (d : ℕ) (hok : extract uid = .ok d) :
    QEvent.invoked uid d ∈ deliverTemp extract cbRaises temp := by
  induction temp with
  | nil => cases hmem
  | cons hd tl ih =>
    obtain ⟨uid', pq'⟩ := hd
    simp only [deliverTemp, List.mem_append]
    rcases List.mem_cons.mp hmem with heq | hmem'
    · left
      injection heq with h1 h2
      subst h1
      cases hcb : cbRaises uid <;> simp [hok, hcb]
    · right
      exact ih hmem'

/-- Claim C6: within one drain cycle, an entry whose row extraction or
continuation raises only gets the error caught and logged; every entry of
the batch is still processed, and every entry whose extraction succeeds —
before or after the failing one — still has its continuation invoked. -/
theorem deliver_error_isolation (extract : Nat → Except Unit ℕ)
    (cbRaises : Nat → Bool) (temp : List (Nat × PendingQuery))
    (u : Nat × PendingQuery) (hu : u ∈ temp)
    (hufail : (∃ err, extract u.1 = .error err) ∨ cbRaises u.1 = true) :
    QEvent.logged u.1 ∈ deliverTemp extract cbRaises temp ∧
    ∀ v ∈ temp, ∀ d, extract v.1 = .ok d →
      QEvent.invoked v.1 d ∈ deliverTemp extract cbRaises temp := by
  constructor
  · exact deliverTemp_mem_logged extract cbRaises u.1 u.2 temp (by simpa using hu) hufail
  · intro v hv d hd
    exact deliverTemp_mem_invoked extract cbRaises v.1 v.2 temp (by simpa using hv) d hd

/-- Witness for C6: a two-entry batch where entry 0's extraction raises;
the error is logged and entry 1's continuation is still invoked with its
rows. -/
theorem deliver_error_isolation_witness :
    ((0, (⟨"A".toList, .fetchone, 5⟩ : PendingQuery)) ∈
        [(0, (⟨"A".toList, FetchKind.fetchone, 5⟩ : PendingQuery)),
          (1, ⟨"B".toList, .fetchone, 5⟩)] ∧
      (∃ err, (fun u => if u = 0 then (.error () : Except Unit ℕ) else .ok 7) 0 =
        .error err) ∧
      (fun u => if u = 0 then (.error () : Except Unit ℕ) else .ok 7) 1 = .ok 7) ∧
    QEvent.logged 0 ∈
      deliverTemp (fun u => if u = 0 then .error () else .ok 7) (fun _ => false)
        [(0, ⟨"A".toList, .fetchone, 5⟩), (1, ⟨"B".toList, .fetchone, 5⟩)] ∧
    QEvent.invoked 1 7 ∈
      deliverTemp (fun u => if u = 0 then .error () else .ok 7) (fun _ => false)
        [(0, ⟨"A".toList, .fetchone, 5⟩), (1, ⟨"B".toList, .fetchone, 5⟩)] := by
  have h := deliver_error_isolation
    (fun u => if u = 0 then .error () else .ok 7) (fun _ => false)
    [(0, ⟨"A".toList, .fetchone, 5⟩), (1, ⟨"B".toList, .fetchone, 5⟩)]
    (0, ⟨"A".toList, .fetchone, 5⟩) (by simp) (Or.inl ⟨(), by simp⟩)
  exact ⟨⟨by simp, ⟨(), by simp⟩, by simp⟩, h.1,
    h.2 (1, ⟨"B".toList, .fetchone, 5⟩) (by simp) 7 (by simp)⟩

/-! ## Claims about the readiness poller's error branch -/

/-- Every callback position is reported as called (with the error) by the
offset-counting loop. -/
theorem pollerErrorLoop_called (err : ℕ) (cbs : List Bool) (start i : Nat)
    (hi : i < cbs.length) :
    PEvent.called (start + i) err ∈ pollerErrorLoop err start cbs ∧
    (cbs.get ⟨i, hi⟩ = true →
      PEvent.cbLogged (start + i) ∈ pollerErrorLoop err start cbs) := by
  induction cbs generalizing start i with
  | nil => cases hi
  | cons b tl ih =>
    cases i with
    | zero =>
      constructor
      · simp [pollerErrorLoop]
      · intro hb
        simp only [List.get] at hb
        simp [pollerErrorLoop, hb]
    | succ j =>
      have hj : j < tl.length := Nat.lt_of_succ_lt_succ hi
      have := ih (start + 1) j hj
      constructor
      · have hmem := this.1
        simp only [pollerErrorLoop, List.mem_append, List.mem_cons]
        right
        simpa [Nat.add_assoc, Nat.add_comm 1 j] using hmem
      · intro hb
        have hmem := this.2 (by simpa using hb)
        simp only [pollerErrorLoop, List.mem_append, List.mem_cons]
        right
        simpa [Nat.add_assoc, Nat.add_comm 1 j] using hmem

/-- Claim C7: when `poll()` raises, every registered callback is invoked
with the error object, and a callback that itself raises has its
exception caught and reported — later callbacks in the set are invoked
all the same. -/
theorem poller_error_all_called (err : ℕ) (cbs : List Bool) (i : Nat)
    (hi : i < cbs.length) :
    PEvent.called i err ∈ pollerErrorBranch err cbs ∧
    (cbs.get ⟨i, hi⟩ = true →
      PEvent.cbLogged i ∈ pollerErrorBranch err cbs) := by
  have hne : cbs ≠ [] := by
    intro h; subst h; cases hi
  have := pollerErrorLoop_called err cbs 0 i hi
  simpa [pollerErrorBranch, hne] using this

/-- Witness for C7: two callbacks, the first raising; both are invoked
with the error, and the first's own exception is caught and reported. -/
theorem poller_error_all_called_witness :
    (0 < [true, false].length ∧ 1 < [true, false].length) ∧
    PEvent.called 0 3 ∈ pollerErrorBranch 3 [true, false] ∧
    PEvent.cbLogged 0 ∈ pollerErrorBranch 3 [true, false] ∧
    PEvent.called 1 3 ∈ pollerErrorBranch 3 [true, false] := by
  refine ⟨⟨by decide, by decide⟩, ?_, ?_, ?_⟩
  · exact (poller_error_all_called 3 [true, false] 0 (by decide)).1
  · exact (poller_error_all_called 3 [true, false] 0 (by decide)).2 (by decide)
  · exact (poller_error_all_called 3 [true, false] 1 (by decide)).1

/-! ## Claims about the fan-out batch runner -/

/-- Python dict lookup on the association lists built by `insertA`. -/
def lookupA {K C : Type} [DecidableEq K] (k : K) : List (K × C) → Option C
  | [] => none
  | (k', c) :: t => if k' = k then some c else lookupA k t

theorem lookupA_insertA_self {K C : Type} [DecidableEq K]
    (a : List (K × C)) (k : K) (c : C) : lookupA k (insertA a k c) = some c := by
  induction a with
  | nil => simp [insertA, lookupA]
  | cons hd tl ih =>
    obtain ⟨k', c'⟩ := hd
    by_cases h : k' = k <;> simp [insertA, lookupA, h, ih]

theorem lookupA_insertA_ne {K C : Type} [DecidableEq K]
    (a : List (K × C)) (k k' : K) (c : C) (h : k' ≠ k) :
    lookupA k' (insertA a k c) = lookupA k' a := by
  have h' : ¬ k = k' := fun he => h he.symm
  induction a with
  | nil => simp [insertA, lookupA, h']
  | cons hd tl ih =>
    obtain ⟨k'', c''⟩ := hd
    by_cases h2 : k'' = k
    · subst h2
      simp [insertA, lookupA, h']
    · by_cases h3 : k'' = k' <;> simp [insertA, lookupA, h2, h3, ih, h]

theorem batchCollect_size {K C : Type} [DecidableEq K] (cbPresent : Bool)
    (s : BState K C) (k : K) (c : C) :
    (batchCollect cbPresent s k c).size = s.size - 1 := by
  unfold batchCollect
  dsimp only
  split <;> rfl

theorem batchCollect_args {K C : Type} [DecidableEq K] (cbPresent : Bool)
    (s : BState K C) (k : K) (c : C) :
    (batchCollect cbPresent s k c).args = insertA s.args k c := by
  unfold batchCollect
  dsimp only
  split <;> rfl

theorem batchCollect_fired_neg {K C : Type} [DecidableEq K] (cbPresent : Bool)
    (s : BState K C) (k : K) (c : C)
    (h : ¬ (s.size - 1 = 0 ∧ cbPresent = true)) :
    (batchCollect cbPresent s k c).fired = s.fired := by
  unfold batchCollect
  dsimp only
  rw [if_neg h]

theorem batchCollect_fired_pos {K C : Type} [DecidableEq K]
    (s : BState K C) (k : K) (c : C) (h : s.size - 1 = 0) :
    (batchCollect true s k c).fired = s.fired ++ [insertA s.args k c] := by
  unfold batchCollect
  dsimp only
  rw [if_pos ⟨h, rfl⟩]

/-- The `_args` accumulated by a run of `_collect`s is the fold of dict
assignments over the completion order. -/
theorem runCollects_args {K C : Type} [DecidableEq K] (cbPresent : Bool)
    (l : List (K × C)) (s : BState K C) :
    (runCollects cbPresent s l).args =
      l.foldl (fun a kc => insertA a kc.1 kc.2) s.args := by
  induction l generalizing s with
  | nil => rfl
  | cons hd tl ih =>
    obtain ⟨k, c⟩ := hd
    simp only [runCollects, List.foldl_cons]
    rw [ih, batchCollect_args]

/-- The countdown after a run of `_collect`s. -/
theorem runCollects_size {K C : Type} [DecidableEq K] (cbPresent : Bool)
    (l : List (K × C)) (s : BState K C) :
    (runCollects cbPresent s l).size = s.size - l.length := by
  induction l generalizing s with
  | nil => rfl
  | cons hd tl ih =>
    obtain ⟨k, c⟩ := hd
    simp only [runCollects, List.length_cons]
    rw [ih, batchCollect_size]
    omega

/-- While completions are still outstanding the callback has not fired. -/
theorem runCollects_fired_lt {K C : Type} [DecidableEq K] (cbPresent : Bool)
    (l : List (K × C)) (s : BState K C) (h : l.length < s.size) :
    (runCollects cbPresent s l).fired = s.fired := by
  induction l generalizing s with
  | nil => rfl
  | cons hd tl ih =>
    obtain ⟨k, c⟩ := hd
    simp only [List.length_cons] at h
    simp only [runCollects]
    rw [ih _ (by rw [batchCollect_size]; omega),
      batchCollect_fired_neg _ _ _ _ (by intro hc; omega)]

/-- When the completions exactly exhaust the countdown, the callback
fires once, at the last completion, with the fully accumulated `_args`. -/
theorem runCollects_fired_exact {K C : Type} [DecidableEq K]
    (l : List (K × C)) (s : BState K C) (hne : l ≠ [])
    (hlen : l.length = s.size) :
    (runCollects true s l).fired =
      s.fired ++ [l.foldl (fun a kc => insertA a kc.1 kc.2) s.args] := by
  induction l generalizing s with
  | nil => cases hne rfl
  | cons hd tl ih =>
    obtain ⟨k, c⟩ := hd
    cases tl with
    | nil =>
      simp only [List.length_cons, List.length_nil] at hlen
      have hstep : runCollects true s [(k, c)] = batchCollect true s k c := rfl
      rw [hstep, batchCollect_fired_pos _ _ _ (by omega),
        List.foldl_cons, List.foldl_nil]
    | cons hd' tl' =>
      simp only [List.length_cons] at hlen
      have hstep : runCollects true s ((k, c) :: hd' :: tl') =
          runCollects true (batchCollect true s k c) (hd' :: tl') := rfl
      rw [hstep, ih (batchCollect true s k c) (by simp)
          (by rw [batchCollect_size]; simp only [List.length_cons]; omega),
        batchCollect_fired_neg _ _ _ _ (by intro hc; obtain ⟨h0, -⟩ := hc; omega),
        batchCollect_args]
      simp only [List.foldl_cons]

/-- Keys never completed keep their initial binding through a run. -/
theorem lookupA_foldl_not_mem {K C : Type} [DecidableEq K]
    (l : List (K × C)) (a : List (K × C)) (k : K)
    (h : k ∉ l.map Prod.fst) :
    lookupA k (l.foldl (fun a kc => insertA a kc.1 kc.2) a) = lookupA k a := by
  induction l generalizing a with
  | nil => rfl
  | cons hd tl ih =>
    obtain ⟨k', c'⟩ := hd
    simp only [List.map_cons, List.mem_cons] at h
    push_neg at h
    simp only [List.foldl_cons]
    rw [ih _ h.2, lookupA_insertA_ne a k' k c' h.1]

/-- After a run whose completion keys are distinct, every completed key is
bound to its own cursor. -/
theorem lookupA_foldl_mem {K C : Type} [DecidableEq K]
    (l : List (K × C)) (a : List (K × C)) (k : K) (c : C)
    (hnd : (l.map Prod.fst).Nodup) (hmem : (k, c) ∈ l) :
    lookupA k (l.foldl (fun a kc => insertA a kc.1 kc.2) a) = some c := by
  induction l generalizing a with
  | nil => cases hmem
  | cons hd tl ih =>
    obtain ⟨k', c'⟩ := hd
    simp only [List.map_cons, List.nodup_cons] at hnd
    rcases List.mem_cons.mp hmem with heq | hmem'
    · injection heq with h1 h2
      subst h1; subst h2
      simp only [List.foldl_cons]
      rw [lookupA_foldl_not_mem _ _ _ hnd.1, lookupA_insertA_self]
    · simp only [List.foldl_cons]
      exact ih _ hnd.2 hmem'

/-- Claim C5 (counterexample): a `BatchQuery` over the empty query dict
never invokes its completion continuation at all — `_size` starts at 0
and `_collect` never runs — refuting "invoked exactly once" for every
keyed set. -/
theorem batch_completion_cx :
    (runCollects true (batchInit ([] : List ℕ) (C := ℕ)) []).fired = [] ∧
    (runCollects true (batchInit ([] : List ℕ) (C := ℕ)) []).fired.length ≠ 1 := by
  decide

/-- Claim C5 (amended, nonempty): for every nonempty keyed query set, in
whatever order the queries complete, the completion continuation fires
exactly once, only once the last outstanding query has completed, and its
argument binds exactly the given keys, each to its own result cursor. -/
theorem batch_completion {K C : Type} [DecidableEq K] (keys : List K)
    (order : List (K × C)) (hnd : keys.Nodup)
    (hperm : (order.map Prod.fst).Perm keys) (hne : keys ≠ []) :
    (runCollects true (batchInit keys) order).fired =
      [(runCollects true (batchInit keys) order).args] ∧
    (∀ p ∈ order,
      lookupA p.1 (runCollects true (batchInit keys) order).args = some p.2) ∧
    (∀ k, k ∉ order.map Prod.fst →
      lookupA k (runCollects true (batchInit keys) order).args = none) ∧
    (∀ pre, pre <+: order → pre.length < order.length →
      (runCollects true (batchInit keys) pre).fired = []) := by
  have hlen : order.length = keys.length := by
    simpa using hperm.length_eq
  have hordnd : (order.map Prod.fst).Nodup := hperm.nodup_iff.mpr hnd
  have hone : order ≠ [] := by
    intro h
    subst h
    exact hne (by simpa using hperm.symm.eq_nil)
  refine ⟨?_, ?_, ?_, ?_⟩
  · rw [runCollects_fired_exact order (batchInit keys) hone (by simp [batchInit, hlen]),
      runCollects_args]
    simp [batchInit]
  · intro p hp
    rw [runCollects_args]
    exact lookupA_foldl_mem order [] p.1 p.2 hordnd hp
  · intro k hk
    rw [runCollects_args]
    have hargs : (batchInit keys (C := C)).args = [] := rfl
    rw [hargs, lookupA_foldl_not_mem order [] k hk]
    rfl
  · intro pre hpre hlt
    apply runCollects_fired_lt
    simp [batchInit]
    omega

/-- Witness for the amended C5: keys 0 and 1 completing in reverse order
still fire the continuation exactly once, with both cursors bound. -/
theorem batch_completion_witness :
    ([0, 1] : List ℕ).Nodup ∧
    ([(1, 10), (0, 20)].map Prod.fst).Perm ([0, 1] : List ℕ) ∧
    ([0, 1] : List ℕ) ≠ [] ∧
    (runCollects true (batchInit ([0, 1] : List ℕ)) [(1, 10), (0, 20)]).fired =
      [(runCollects true (batchInit ([0, 1] : List ℕ)) [(1, 10), (0, 20)]).args] := by
  refine ⟨by decide, ?_, by decide, ?_⟩
  · exact List.Perm.swap 0 1 []
  · exact (batch_completion [0, 1] [(1, 10), (0, 20)] (by decide)
      (List.Perm.swap 0 1 []) (by decide)).1

/-! ## Claims about the expiry sweep -/

/-- How many of the recorded continuation firings belong to request `k`. -/
def countFires (k : Nat) (l : List (ℤ × Nat × Option ℕ)) : Nat :=
  (l.map (fun p => p.2.1)).count k

theorem purge_fst_sublist (t : ℤ) (q : List (Nat × PendingQuery)) :
    ((purge_expired t q).1.map Prod.fst).Sublist (q.map Prod.fst) := by
  induction q with
  | nil => simp [purge_expired]
  | cons hd rest ih =>
    obtain ⟨k, v⟩ := hd
    by_cases h : v.expiresAt < t
    · simp only [purge_expired, h, if_true, List.map_cons]
      exact ih.cons _
    · simp only [purge_expired, h, if_false, List.map_cons]
      exact ih.cons₂ _

theorem purge_fired_sublist (t : ℤ) (q : List (Nat × PendingQuery)) :
    ((purge_expired t q).2).Sublist (q.map Prod.fst) := by
  induction q with
  | nil => simp [purge_expired]
  | cons hd rest ih =>
    obtain ⟨k, v⟩ := hd
    by_cases h : v.expiresAt < t
    · simp only [purge_expired, h, if_true, List.map_cons]
      exact ih.cons₂ _
    · simp only [purge_expired, h, if_false, List.map_cons]
      exact ih.cons _

theorem purge_not_mem_fst (t : ℤ) (q : List (Nat × PendingQuery)) (k : Nat)
    (h : k ∉ q.map Prod.fst) : k ∉ (purge_expired t q).1.map Prod.fst :=
  fun hm => h ((purge_fst_sublist t q).subset hm)

theorem purge_not_mem_fired (t : ℤ) (q : List (Nat × PendingQuery)) (k : Nat)
    (h : k ∉ q.map Prod.fst) : k ∉ (purge_expired t q).2 :=
  fun hm => h ((purge_fired_sublist t q).subset hm)

theorem purge_nodup (t : ℤ) (q : List (Nat × PendingQuery))
    (h : (q.map Prod.fst).Nodup) : ((purge_expired t q).1.map Prod.fst).Nodup :=
  h.sublist (purge_fst_sublist t q)

/-- An entry not yet expired survives the sweep. -/
theorem purge_kept (t : ℤ) (q : List (Nat × PendingQuery)) (k : Nat)
    (v : PendingQuery) (hmem : (k, v) ∈ q) (hkeep : ¬ v.expiresAt < t) :
    (k, v) ∈ (purge_expired t q).1 := by
  induction q with
  | nil => cases hmem
  | cons hd rest ih =>
    obtain ⟨k', v'⟩ := hd
    rcases List.mem_cons.mp hmem with heq | hmem'
    · injection heq with h1 h2
      subst h1; subst h2
      simp only [purge_expired, hkeep, if_false]
      exact List.mem_cons_self _ _
    · by_cases h : v'.expiresAt < t
      · simp only [purge_expired, h, if_true]
        exact ih hmem'
      · simp only [purge_expired, h, if_false]
        exact List.mem_cons_of_mem _ (ih hmem')

/-- With distinct keys, an entry not yet expired is not fired by the
sweep. -/
theorem purge_kept_not_fired (t : ℤ) (q : List (Nat × PendingQuery)) (k : Nat)
    (v : PendingQuery) (hnd : (q.map Prod.fst).Nodup) (hmem : (k, v) ∈ q)
    (hkeep : ¬ v.expiresAt < t) : k ∉ (purge_expired t q).2 := by
  induction q with
  | nil => cases hmem
  | cons hd rest ih =>
    obtain ⟨k', v'⟩ := hd
    simp only [List.map_cons, List.nodup_cons] at hnd
    rcases List.mem_cons.mp hmem with heq | hmem'
    · injection heq with h1 h2
      subst h1; subst h2
      simp only [purge_expired, hkeep, if_false]
      exact purge_not_mem_fired t rest k hnd.1
    · have hk' : k' ≠ k := by
        intro he
        subst he
        exact hnd.1 (List.mem_map.mpr ⟨(k', v), hmem', rfl⟩)
      by_cases h : v'.expiresAt < t
      · simp only [purge_expired, h, if_true]
        intro hm
        rcases List.mem_cons.mp hm with he | hm'
        · exact hk' he.symm
        · exact ih hnd.2 hmem' hm'
      · simp only [purge_expired, h, if_false]
        exact ih hnd.2 hmem'

/-- With distinct keys, an expired entry is fired exactly once by the
sweep and removed from the rebuilt queue. -/
theorem purge_expired_hit (t : ℤ) (q : List (Nat × PendingQuery)) (k : Nat)
    (v : PendingQuery) (hnd : (q.map Prod.fst).Nodup) (hmem : (k, v) ∈ q)
    (hhit : v.expiresAt < t) :
    (purge_expired t q).2.count k = 1 ∧
    k ∉ (purge_expired t q).1.map Prod.fst := by
  induction q with
  | nil => cases hmem
  | cons hd rest ih =>
    obtain ⟨k', v'⟩ := hd
    simp only [List.map_cons, List.nodup_cons] at hnd
    rcases List.mem_cons.mp hmem with heq | hmem'
    · injection heq with h1 h2
      subst h1; subst h2
      simp only [purge_expired, hhit, if_true]
      constructor
      · rw [List.count_cons_self,
          List.count_eq_zero.mpr (purge_not_mem_fired t rest k hnd.1)]
      · exact purge_not_mem_fst t rest k hnd.1
    · have hk' : k' ≠ k := by
        intro he
        subst he
        exact hnd.1 (List.mem_map.mpr ⟨(k', v), hmem', rfl⟩)
      have ihr := ih hnd.2 hmem'
      by_cases h : v'.expiresAt < t
      · simp only [purge_expired, h, if_true]
        refine ⟨?_, ihr.2⟩
        rw [List.count_cons_of_ne (fun he => hk' he.symm), ihr.1]
      · simp only [purge_expired, h, if_false, List.map_cons]
        refine ⟨ihr.1, ?_⟩
        intro hm
        rcases List.mem_cons.mp hm with he | hm'
        · exact hk' he.symm
        · exact ihr.2 hm'

/-- A key absent from the queue is never fired, and never reappears, over
any sequence of sweeps. -/
theorem sweeps_absent (ts : List ℤ) (q : List (Nat × PendingQuery)) (k : Nat)
    (h : k ∉ q.map Prod.fst) :
    (∀ p ∈ (runSweeps ts q).2, p.2.1 ≠ k) ∧
    k ∉ (runSweeps ts q).1.map Prod.fst := by
  induction ts generalizing q with
  | nil =>
    refine ⟨?_, h⟩
    intro p hp
    simp [runSweeps] at hp
  | cons T ts ih =>
    have h1 := purge_not_mem_fst T q k h
    have h2 := purge_not_mem_fired T q k h
    have ihr := ih (purge_expired T q).1 h1
    refine ⟨?_, ?_⟩
    · intro p hp
      simp only [runSweeps, List.mem_append] at hp
      rcases hp with hp1 | hp2
      · obtain ⟨k', hk', he⟩ := List.mem_map.mp hp1
        intro hpk
        rw [← he] at hpk
        exact h2 (hpk ▸ hk')
      · exact ihr.1 p hp2
    · simpa only [runSweeps] using ihr.2

theorem countFires_append (k : Nat) (l1 l2 : List (ℤ × Nat × Option ℕ)) :
    countFires k (l1 ++ l2) = countFires k l1 + countFires k l2 := by
  simp [countFires, List.count_append]

theorem countFires_mapped (k : Nat) (T : ℤ) (fired : List Nat) :
    countFires k (fired.map (fun k' => (T, k', (none : Option ℕ)))) =
      fired.count k := by
  rw [countFires, List.map_map]
  have h : ((fun p => p.2.1) ∘ fun k' => ((T, k', none) : ℤ × ℕ × Option ℕ)) =
      fun k' => k' := rfl
  rw [h]
  simp

theorem countFires_zero_of_absent (k : Nat) (l : List (ℤ × Nat × Option ℕ))
    (h : ∀ p ∈ l, p.2.1 ≠ k) : countFires k l = 0 := by
  rw [countFires, List.count_eq_zero]
  intro hk
  obtain ⟨p, hp, he⟩ := List.mem_map.mp hk
  exact h p hp he

/-- Claim C2: a query with `expires_at = e + t` that is never drained has
its continuation scheduled with `None` only at sweeps strictly after
`e + t`; if some sweep falls after `e + t` it fires exactly once and the
entry is discarded from the queue for good, and while every sweep is at
or before `e + t` it never fires and the entry stays queued. -/
theorem queue_expiry (times : List ℤ) (q : List (Nat × PendingQuery))
    (k : Nat) (v : PendingQuery) (e t : ℤ) (hexp : v.expiresAt = e + t)
    (hnd : (q.map Prod.fst).Nodup) (hmem : (k, v) ∈ q) :
    (∀ p ∈ (runSweeps times q).2, p.2.1 = k → e + t < p.1 ∧ p.2.2 = none) ∧
    ((∃ T ∈ times, e + t < T) →
      countFires k (runSweeps times q).2 = 1 ∧
      k ∉ (runSweeps times q).1.map Prod.fst) ∧
    ((∀ T ∈ times, ¬ e + t < T) →
      countFires k (runSweeps times q).2 = 0 ∧
      (k, v) ∈ (runSweeps times q).1) := by
  induction times generalizing q hnd hmem with
  | nil =>
    refine ⟨?_, ?_, ?_⟩
    · intro p hp
      simp [runSweeps] at hp
    · rintro ⟨T, hT, -⟩
      cases hT
    · intro _
      exact ⟨rfl, hmem⟩
  | cons T ts ih =>
    by_cases hT : e + t < T
    · have hhit : v.expiresAt < T := by rw [hexp]; exact hT
      have hone := purge_expired_hit T q k v hnd hmem hhit
      have habs := sweeps_absent ts (purge_expired T q).1 k hone.2
      refine ⟨?_, ?_, ?_⟩
      · intro p hp hpk
        simp only [runSweeps, List.mem_append] at hp
        rcases hp with hp1 | hp2
        · obtain ⟨k', hk', he⟩ := List.mem_map.mp hp1
          rw [← he]
          exact ⟨hT, rfl⟩
        · exact absurd hpk (habs.1 p hp2)
      · intro _
        refine ⟨?_, ?_⟩
        · simp only [runSweeps]
          rw [countFires_append, countFires_mapped, hone.1,
            countFires_zero_of_absent _ _ habs.1]
        · simpa only [runSweeps] using habs.2
      · intro hall
        exact absurd hT (hall T (List.mem_cons_self _ _))
    · have hkeep : ¬ v.expiresAt < T := by rw [hexp]; exact hT
      have hk1 : (k, v) ∈ (purge_expired T q).1 := purge_kept T q k v hmem hkeep
      have hk2 : k ∉ (purge_expired T q).2 :=
        purge_kept_not_fired T q k v hnd hmem hkeep
      have ihr := ih (purge_expired T q).1 (purge_nodup T q hnd) hk1
      refine ⟨?_, ?_, ?_⟩
      · intro p hp hpk
        simp only [runSweeps, List.mem_append] at hp
        rcases hp with hp1 | hp2
        · obtain ⟨k', hk', he⟩ := List.mem_map.mp hp1
          exfalso
          apply hk2
          rw [← he] at hpk
          exact hpk ▸ hk'
        · exact ihr.1 p hp2 hpk
      · rintro ⟨T', hT', hlt⟩
        have hT'ts : T' ∈ ts := by
          rcases List.mem_cons.mp hT' with heq | hm
          · exact absurd (heq ▸ hlt) hT
          · exact hm
        have hr := ihr.2.1 ⟨T', hT'ts, hlt⟩
        refine ⟨?_, ?_⟩
        · simp only [runSweeps]
          rw [countFires_append, countFires_mapped,
            List.count_eq_zero.mpr hk2, hr.1]
        · simpa only [runSweeps] using hr.2
      · intro hall
        have hr := ihr.2.2 (fun T' hT' => hall T' (List.mem_cons_of_mem _ hT'))
        refine ⟨?_, ?_⟩
        · simp only [runSweeps]
          rw [countFires_append, countFires_mapped,
            List.count_eq_zero.mpr hk2, hr.1]
        · simpa only [runSweeps] using hr.2

/-- Witness for C2: one entry expiring at 5 (enqueued at 2 with timeout
3), swept at times 4 and 6: the sweep at 4 leaves it alone, the sweep at
6 fires it exactly once and discards it. -/
theorem queue_expiry_witness :
    ((⟨"SELECT 1;".toList, .fetchone, 5⟩ : PendingQuery).expiresAt =
        (2 : ℤ) + 3 ∧
      (([(0, ⟨"SELECT 1;".toList, FetchKind.fetchone, 5⟩)] :
          List (Nat × PendingQuery)).map Prod.fst).Nodup ∧
      (2 : ℤ) + 3 < 6 ∧ (6 : ℤ) ∈ [(4 : ℤ), 6]) ∧
    countFires 0
        (runSweeps [4, 6] [(0, ⟨"SELECT 1;".toList, .fetchone, 5⟩)]).2 = 1 ∧
    0 ∉ (runSweeps [4, 6]
        [(0, ⟨"SELECT 1;".toList, .fetchone, 5⟩)]).1.map Prod.fst := by
  refine ⟨⟨by decide, by decide, by decide, by decide⟩, ?_, ?_⟩
  · exact (queue_expiry [4, 6] [(0, ⟨"SELECT 1;".toList, .fetchone, 5⟩)] 0
      ⟨"SELECT 1;".toList, .fetchone, 5⟩ 2 3 (by decide) (by decide)
      (by decide)).2.1 ⟨6, by decide, by decide⟩ |>.1
  · exact (queue_expiry [4, 6] [(0, ⟨"SELECT 1;".toList, .fetchone, 5⟩)] 0
      ⟨"SELECT 1;".toList, .fetchone, 5⟩ 2 3 (by decide) (by decide)
      (by decide)).2.1 ⟨6, by decide, by decide⟩ |>.2

/-! ## Claims about id ownership -/

/-- Every request id a `DbQueryQueue` run currently holds, queue first,
then the in-flight batch, then the already-fired ids. -/
def allIds (s : QState) : List Nat :=
  s.queue.map Prod.fst ++ s.temp.map Prod.fst ++ s.fired

/-- The id bookkeeping invariant: no id appears twice across queue,
in-flight batch and fired set, and every id ever handed out is below the
fresh counter. -/
def QInv (s : QState) : Prop :=
  (allIds s).Nodup ∧ ∀ id ∈ allIds s, id < s.next

theorem drainLoop_init (n : Nat) (q : List (Nat × PendingQuery)) :
    drainLoop n q [] 0 = (q.drop n, q.take n) := by
  rw [drainLoop_eq]
  simp

/-- Moving the head of the middle segment to the tail of the last one is
a permutation. -/
theorem perm_rotate (A B F : List Nat) (uid : Nat) :
    ((A ++ B) ++ (F ++ [uid])).Perm ((A ++ (uid :: B)) ++ F) := by
  have h1 : (B ++ (F ++ [uid])).Perm (uid :: (B ++ F)) := by
    rw [← List.append_assoc]
    exact List.perm_append_singleton _ _
  have hL : (A ++ B) ++ (F ++ [uid]) = A ++ (B ++ (F ++ [uid])) := by
    rw [List.append_assoc]
  have hR : (A ++ (uid :: B)) ++ F = A ++ (uid :: (B ++ F)) := by
    simp [List.append_assoc]
  rw [hL, hR]
  exact h1.append_left A

theorem qInit_inv : QInv qInit := by
  constructor <;> simp [qInit, allIds]

theorem qStep_inv (s : QState) (op : QOp) (h : QInv s) : QInv (qStep s op) := by
  obtain ⟨hnd, hlt⟩ := h
  cases op with
  | enqueue e =>
    have hperm : allIds (qStep s (.enqueue e)) |>.Perm (s.next :: allIds s) := by
      simp only [qStep, allIds, List.map_append, List.map_cons, List.map_nil]
      have h1 : s.queue.map Prod.fst ++ [s.next] ++ s.temp.map Prod.fst =
          s.queue.map Prod.fst ++ (s.next :: s.temp.map Prod.fst) := by
        rw [List.append_assoc]
        rfl
      rw [h1]
      have h2 : (s.queue.map Prod.fst ++ (s.next :: s.temp.map Prod.fst)).Perm
          (s.next :: (s.queue.map Prod.fst ++ s.temp.map Prod.fst)) :=
        List.perm_middle
      exact h2.append_right s.fired
    have hfresh : s.next ∉ allIds s := fun hm => absurd (hlt _ hm) (lt_irrefl _)
    constructor
    · rw [hperm.nodup_iff, List.nodup_cons]
      exact ⟨hfresh, hnd⟩
    · intro id hm
      have : id ∈ s.next :: allIds s := hperm.subset hm
      have hnext : (qStep s (.enqueue e)).next = s.next + 1 := rfl
      rw [hnext]
      rcases List.mem_cons.mp this with heq | hm'
      · omega
      · have := hlt _ hm'
        omega
  | drain n =>
    by_cases ht : s.temp = []
    · have hperm : allIds (qStep s (.drain n)) |>.Perm (allIds s) := by
        simp only [qStep, ht, if_true, drainLoop_init, allIds]
        simp only [List.map_nil, List.append_nil, List.nil_append]
        have h1 : ((s.queue.drop n).map Prod.fst ++
            (s.queue.take n).map Prod.fst).Perm
            ((s.queue.take n).map Prod.fst ++ (s.queue.drop n).map Prod.fst) :=
          List.perm_append_comm
        have h2 : (s.queue.take n).map Prod.fst ++ (s.queue.drop n).map Prod.fst =
            s.queue.map Prod.fst := by
          rw [← List.map_append, List.take_append_drop]
        exact (h1.append_right s.fired).trans (by rw [h2])
      constructor
      · rw [hperm.nodup_iff]
        exact hnd
      · intro id hm
        have hm' := hperm.subset hm
        have hnext : (qStep s (.drain n)).next = s.next := by
          simp [qStep, ht]
        rw [hnext]
        exact hlt _ hm'
    · have hs : qStep s (.drain n) = s := by
        simp [qStep, ht]
      rw [hs]
      exact ⟨hnd, hlt⟩
  | deliverOne =>
    cases htemp : s.temp with
    | nil =>
      have hs : qStep s .deliverOne = s := by
        simp [qStep, htemp]
      rw [hs]
      exact ⟨hnd, hlt⟩
    | cons hd rest =>
      obtain ⟨uid, pq⟩ := hd
      have hs : qStep s .deliverOne =
          { s with temp := rest, fired := s.fired ++ [uid] } := by
        simp [qStep, htemp]
      have hperm : allIds (qStep s .deliverOne) |>.Perm (allIds s) := by
        rw [hs]
        simp only [allIds, htemp, List.map_cons]
        exact perm_rotate (s.queue.map Prod.fst) (rest.map Prod.fst) s.fired uid
      constructor
      · rw [hperm.nodup_iff]
        exact hnd
      · intro id hm
        have hm' := hperm.subset hm
        have hnext : (qStep s .deliverOne).next = s.next := by
          rw [hs]
        rw [hnext]
        exact hlt _ hm'

theorem qRun_foldl_inv (ops : List QOp) (s : QState) (h : QInv s) :
    QInv (ops.foldl qStep s) := by
  induction ops generalizing s with
  | nil => exact h
  | cons op rest ih => exact ih _ (qStep_inv s op h)

/-- Claim C9: over every interleaving of enqueues, drains and deliveries,
the ids across the pending queue, the in-flight batch and the
already-fired set stay pairwise distinct — an id lives in at most one of
the three places (and in it once), so it is never simultaneously queued
and in flight, and never reenters either after its continuation has
fired. -/
theorem queue_id_ownership (ops : List QOp) :
    ((qRun ops).queue.map Prod.fst ++ (qRun ops).temp.map Prod.fst ++
      (qRun ops).fired).Nodup :=
  (qRun_foldl_inv ops qInit qInit_inv).1

end Momoko
